import Mathlib

/-!
Verification of the go-hw coursework repository.

The repository contains a concurrent-map benchmark harness (HW-3), an
atomic-versus-plain counter comparison, and a product-search service
(HW-6) built from a store, a search module, a generator and a seed-data
loader.  This development gives a shallow embedding of the relevant Go
code and proves the specified properties about it.

Modelling conventions:
  * Go `sync.Map` state is an association list; `Store` replaces the
    entry in place when the key is present and prepends otherwise;
    `Load` is the first entry with a matching key.  A plain Go map
    guarded by a mutex has the same sequential put/get semantics, so
    the same model serves all strategy variants of the benchmark.
  * Concurrency is modelled by quantifying over every interleaving of
    the per-worker operation sequences: a list of put operations that
    is a permutation of the multiset of all worker writes.
  * Go integers are `Int` (or `Nat` for values that are never negative
    in the source); no arithmetic in the embedded fragment can
    overflow 64 bits.
  * `float64` fields (product prices) are carried opaquely as `Rat`;
    the embedded fragment never computes with them.
  * Wall-clock durations are abstract `Nat` parameters; real time is
    outside the embedding.
-/

namespace GoHw

/-! ### Model of sync.Map (and of a locked Go map)

From `src/HW-3/SYNCMAP_EXPERIMENT.md` (harness) and the `store` package
of HW-6: `Store`/`m[k] = v` overwrite an existing entry for the key and
otherwise add a new entry; `Load`/`m[k]` return the entry for the key
when present. -/

/-- Writing key `k` with value `v`: replace the existing entry for `k`
in place, or add a fresh entry when `k` is absent. -/
def syncStore {κ α : Type} [BEq κ] (m : List (κ × α)) (k : κ) (v : α) :
    List (κ × α) :=
  if m.any (fun e => e.1 == k) then
    m.map (fun e => if e.1 == k then (k, v) else e)
  else
    (k, v) :: m

/-- Reading key `k`: the value stored for `k`, or `none` when absent. -/
def syncLoad {κ α : Type} [BEq κ] (m : List (κ × α)) (k : κ) : Option α :=
  (m.find? (fun e => e.1 == k)).map (fun e => e.2)

/-! ### HW-3 concurrent map harness

From `src/HW-3/SYNCMAP_EXPERIMENT.md`, lines 484-545: 50 goroutines,
1000 iterations each, goroutine `g` stores key `g*1000 + i` with value
`i`; after the `WaitGroup` barrier the entries are counted with `Range`
and the report is printed. -/

/-- Key written by worker `g` at iteration `i`: `goroutineID*1000+i`
in the source. -/
def harnessKey (g i : Nat) : Nat := g * 1000 + i

/-- The multiset of put operations issued by `W` workers doing `I`
iterations each, listed worker by worker.  A concurrent execution
performs some interleaving (permutation) of this list. -/
def harnessOps (W I : Nat) : List (Nat × Nat) :=
  (List.range W).flatMap (fun g => (List.range I).map (fun i => (harnessKey g i, i)))

/-- Applying a sequence of put operations to the initially empty map. -/
def runMap (ops : List (Nat × Nat)) : List (Nat × Nat) :=
  ops.foldl (fun m e => syncStore m e.1 e.2) []

/-- Counting entries with `Range` and a callback that always continues,
as the harness does after the barrier (`count++; return true`). -/
def rangeCount (m : List (Nat × Nat)) : Nat :=
  m.foldl (fun c _ => c + 1) 0

/-- The three synchronization strategies of the experiment.  The
`syncMap` harness code is in `src/HW-3/SYNCMAP_EXPERIMENT.md`; the
exclusive-lock and shared-lock variants are modelled from the spec:
their harness code is not under `src`, and per the spec all three
variants realize the same `put`/`len`/`forEach` map contract,
differing only in locking, so the final map content of each is the
fold of the interleaved puts. -/
inductive Strategy : Type
  | syncMap : Strategy
  | mutexMap : Strategy
  | rwMutexMap : Strategy

/-- Final map content of a run of the given strategy on a given
interleaving of put operations.  Locking affects timing only; every
variant applies the same last-write-wins store semantics. -/
def runStrategy : Strategy → List (Nat × Nat) → List (Nat × Nat)
  | Strategy.syncMap, ops => runMap ops
  | Strategy.mutexMap, ops => runMap ops
  | Strategy.rwMutexMap, ops => runMap ops

/-- The post-barrier measurement report of the harness (source lines
530-532): the labelled values actually printed, namely the `Range`
count and the elapsed time.  The elapsed duration is abstract. -/
def measurementReport (elapsed count : Nat) : List (String × Nat) :=
  [("Length of map", count), ("Total time taken", elapsed)]

/-! ### Atomic counter comparison

From `src/unnamed/part_007`: 500 goroutines each increment an atomic
counter and a plain counter 1000 times; the program prints
`Expected value: 500000`. -/

/-- Number of goroutines spawned by the counter program. -/
def counterGoroutines : Nat := 500

/-- Increments performed by each goroutine of the counter program. -/
def counterItersPerGoroutine : Nat := 1000

/-- The expected final value printed by the counter program. -/
def expectedValue : Nat := 500000

/-- Final value of the atomic counter: every fetch-and-add of every
goroutine takes effect exactly once, in schedule order; the result is
the fold of one increment per (goroutine, iteration) pair. -/
def runAtomic (w i : Nat) : Nat :=
  ((List.range w).flatMap (fun _ => List.range i)).foldl (fun c _ => c + 1) 0

/-! ### Basic lemmas about the map model -/

theorem syncLoad_nil {κ α : Type} [BEq κ] (k : κ) :
    syncLoad ([] : List (κ × α)) k = none := rfl

/-- Replacing the entry for key `k` does not change which entry a
search for a different key `j` finds. -/
theorem find_replace_ne {κ α : Type} [BEq κ] [LawfulBEq κ]
    (m : List (κ × α)) (k j : κ) (v : α) (hkj : (k == j) = false) :
    List.find? (fun e => e.1 == j)
        (m.map (fun e => if e.1 == k then (k, v) else e)) =
      List.find? (fun e => e.1 == j) m := by
  induction m with
  | nil => rfl
  | cons e t ih =>
    simp only [List.map_cons, List.find?]
    by_cases he : (e.1 == k)
    · have he1 : e.1 = k := eq_of_beq he
      have hej : (e.1 == j) = false := by rw [he1]; exact hkj
      simp only [he, if_true, hkj, hej, ih]
    · simp only [he, Bool.false_eq_true, if_false]
      by_cases hej : (e.1 == j)
      · simp only [hej]
      · simp only [hej, Bool.false_eq_true, ih]

/-- Loading a key other than the one just stored is unchanged. -/
theorem syncLoad_store_ne {κ α : Type} [BEq κ] [LawfulBEq κ]
    (m : List (κ × α)) (k j : κ) (v : α) (h : j ≠ k) :
    syncLoad (syncStore m k v) j = syncLoad m j := by
  have hkj : (k == j) = false := by
    simp only [beq_eq_false_iff_ne]
    exact fun hkj => h hkj.symm
  unfold syncStore
  by_cases hany : m.any (fun e => e.1 == k)
  · simp only [hany, if_true]
    unfold syncLoad
    rw [find_replace_ne m k j v hkj]
  · simp only [hany, if_false]
    unfold syncLoad
    simp only [List.find?, hkj]

/-- In the replaced list, searching for `k` finds the new entry,
provided some entry for `k` was present. -/
theorem find_replace_self {κ α : Type} [BEq κ] [LawfulBEq κ]
    (m : List (κ × α)) (k : κ) (v : α)
    (hany : m.any (fun e => e.1 == k) = true) :
    List.find? (fun e => e.1 == k)
        (m.map (fun e => if e.1 == k then (k, v) else e)) = some (k, v) := by
  induction m with
  | nil => simp at hany
  | cons e t ih =>
    simp only [List.map_cons, List.find?]
    by_cases he : (e.1 == k)
    · simp only [he, if_true, beq_self_eq_true, List.find?]
    · simp only [he, Bool.false_eq_true, if_false]
      have hany' : t.any (fun e => e.1 == k) = true := by
        simp only [List.any_cons, he, Bool.false_or] at hany
        exact hany
      simp only [he, Bool.false_eq_true, ih hany']

/-- Loading the key just stored yields the stored value. -/
theorem syncLoad_store_self {κ α : Type} [BEq κ] [LawfulBEq κ]
    (m : List (κ × α)) (k : κ) (v : α) :
    syncLoad (syncStore m k v) k = some v := by
  unfold syncStore syncLoad
  by_cases hany : m.any (fun e => e.1 == k)
  · simp only [hany, if_true, find_replace_self m k v hany]
    rfl
  · simp only [hany, if_false, List.find?, beq_self_eq_true]
    rfl

/-- Folding a counting callback adds the list length. -/
theorem foldl_count {α : Type} (l : List α) (c : Nat) :
    l.foldl (fun c _ => c + 1) c = c + l.length := by
  induction l generalizing c with
  | nil => simp
  | cons a t ih => simp [List.foldl_cons, ih]; omega

theorem rangeCount_eq_length (m : List (Nat × Nat)) :
    rangeCount m = m.length := by
  unfold rangeCount
  simpa using foldl_count m 0

/-! ### Lemmas about the write-phase fold -/

/-- Injectivity of the derived key, for any iteration bound up to the
1000 used as multiplier.  Shared by several claim proofs. -/
theorem harnessKey_inj_aux {I w1 i1 w2 i2 : Nat} (hI : I ≤ 1000)
    (h1 : i1 < I) (h2 : i2 < I)
    (h : harnessKey w1 i1 = harnessKey w2 i2) : w1 = w2 ∧ i1 = i2 := by
  unfold harnessKey at h
  omega

/-- The keys of the harness operation list, block by block. -/
theorem harnessOps_map_fst (W I : Nat) :
    (harnessOps W I).map Prod.fst =
      (List.range W).flatMap (fun g => (List.range I).map (fun i => harnessKey g i)) := by
  unfold harnessOps
  induction W with
  | zero => simp
  | succ W ih =>
    rw [List.range_succ, List.flatMap_append, List.flatMap_append,
      List.map_append, ih]
    simp

/-- Membership in a key block. -/
theorem mem_harness_block {I g : Nat} (k : Nat) :
    k ∈ (List.range I).map (fun i => harnessKey g i) ↔
      ∃ i, i < I ∧ k = harnessKey g i := by
  simp only [List.mem_map, List.mem_range]
  constructor
  · rintro ⟨i, hi, hk⟩; exact ⟨i, hi, hk.symm⟩
  · rintro ⟨i, hi, hk⟩; exact ⟨i, hi, hk.symm⟩

/-- The keys written by distinct (worker, iteration) pairs are distinct,
hence the key list of the whole run has no duplicates. -/
theorem harnessOps_keys_nodup (W I : Nat) (hI : I ≤ 1000) :
    ((harnessOps W I).map Prod.fst).Nodup := by
  rw [harnessOps_map_fst]
  induction W with
  | zero => simp
  | succ W ih =>
    rw [List.range_succ, List.flatMap_append]
    rw [List.nodup_append]
    refine ⟨ih, ?_, ?_⟩
    · simp only [List.flatMap_cons, List.flatMap_nil, List.append_nil]
      refine (List.nodup_range I).map ?_
      intro i1 i2 hi
      simp only [harnessKey] at hi
      omega
    · intro k hk1 hk2
      simp only [List.flatMap_cons, List.flatMap_nil, List.append_nil] at hk2
      rw [List.mem_flatMap] at hk1
      obtain ⟨g, hg, hkg⟩ := hk1
      rw [List.mem_range] at hg
      rw [mem_harness_block] at hkg hk2
      obtain ⟨i1, hi1, hk1⟩ := hkg
      obtain ⟨i2, hi2, hk2⟩ := hk2
      rw [hk1] at hk2
      unfold harnessKey at hk2
      omega

/-- When every key of `ops` is fresh for the accumulated map and the
keys of `ops` are mutually distinct, the put fold just prepends the
operations in reverse order. -/
theorem foldl_store_fresh (ops : List (Nat × Nat)) (m : List (Nat × Nat))
    (hfresh : ∀ e ∈ ops, ∀ x ∈ m, x.1 ≠ e.1)
    (hnd : (ops.map Prod.fst).Nodup) :
    ops.foldl (fun m e => syncStore m e.1 e.2) m = ops.reverse ++ m := by
  induction ops generalizing m with
  | nil => simp
  | cons e t ih =>
    have hnone : m.any (fun x => x.1 == e.1) = false := by
      rw [List.any_eq_false]
      intro x hx
      simp only [beq_iff_eq]
      exact hfresh e (List.mem_cons_self ..) x hx
    have hstep : syncStore m e.1 e.2 = (e.1, e.2) :: m := by
      unfold syncStore
      rw [hnone]
      rfl
    simp only [List.foldl_cons, hstep]
    rw [List.map_cons, List.nodup_cons] at hnd
    rw [ih ((e.1, e.2) :: m) ?_ hnd.2]
    · simp
    · intro e' he' x hx
      rcases List.mem_cons.mp hx with hx | hx
      · subst hx
        simp only [ne_eq]
        intro hkey
        exact hnd.1 (by rw [hkey]; exact List.mem_map_of_mem Prod.fst he')
      · exact hfresh e' (List.mem_cons_of_mem e he') x hx

/-- With mutually distinct keys the final map is the reversed operation
list. -/
theorem runMap_eq_reverse (ops : List (Nat × Nat))
    (hnd : (ops.map Prod.fst).Nodup) :
    runMap ops = ops.reverse := by
  unfold runMap
  rw [foldl_store_fresh ops [] (by simp) hnd]
  simp

/-- In a list with mutually distinct keys, finding key `k` yields the
unique entry carrying `k`. -/
theorem find_of_mem_nodup (l : List (Nat × Nat)) (k v : Nat)
    (hnd : (l.map Prod.fst).Nodup) (hmem : (k, v) ∈ l) :
    List.find? (fun e => e.1 == k) l = some (k, v) := by
  induction l with
  | nil => simp at hmem
  | cons e t ih =>
    rw [List.map_cons, List.nodup_cons] at hnd
    rcases List.mem_cons.mp hmem with he | ht
    · subst he
      simp [List.find?]
    · have hek : (e.1 == k) = false := by
        simp only [beq_eq_false_iff_ne, ne_eq]
        intro hk
        exact hnd.1 (by rw [hk]; exact List.mem_map_of_mem Prod.fst ht)
      simp only [List.find?, hek]
      exact ih hnd.2 ht

/-- Every (worker, iteration) pair contributes its operation to the
harness operation list. -/
theorem mem_harnessOps {W I w i : Nat} (hw : w < W) (hi : i < I) :
    (harnessKey w i, i) ∈ harnessOps W I := by
  unfold harnessOps
  rw [List.mem_flatMap]
  exact ⟨w, List.mem_range.mpr hw, List.mem_map_of_mem _ (List.mem_range.mpr hi)⟩

/-- Length of the harness operation list. -/
theorem harnessOps_length (W I : Nat) : (harnessOps W I).length = W * I := by
  unfold harnessOps
  induction W with
  | zero => simp
  | succ W ih =>
    rw [List.range_succ, List.flatMap_append, List.length_append, ih]
    simp [Nat.succ_mul]

/-- Length of the flat map of a constant block. -/
theorem flatMap_const_length {β : Type} (l : List β) (i : Nat) :
    (l.flatMap (fun _ => List.range i)).length = l.length * i := by
  induction l with
  | nil => simp
  | cons a t ih =>
    simp only [List.flatMap_cons, List.length_append, ih, List.length_range,
      List.length_cons, Nat.succ_mul]
    omega

/-- The atomic counter ends at exactly workers times iterations. -/
theorem runAtomic_eq (w i : Nat) : runAtomic w i = w * i := by
  unfold runAtomic
  rw [foldl_count, flatMap_const_length, List.length_range]
  omega

/-! ### Claims about the harness and the counter -/

/-- C1: for every strategy variant and all `W` in `{1, 10, 50}` and `I`
in `{1, 100, 1000}`, after the write barrier (modelled by applying any
interleaving of the per-worker put sequences), the map holds exactly
`W*I` entries, the `Range` visit count equals `W*I`, and every derived
key still maps to its originally written value. -/
theorem strategy_write_phase_correct (strat : Strategy) (W I : Nat)
    (_hW : W ∈ [1, 10, 50]) (hI : I ∈ [1, 100, 1000])
    (ops : List (Nat × Nat)) (hperm : ops.Perm (harnessOps W I)) :
    (runStrategy strat ops).length = W * I ∧
    rangeCount (runStrategy strat ops) = W * I ∧
    ∀ w, w < W → ∀ i, i < I →
      syncLoad (runStrategy strat ops) (harnessKey w i) = some i := by
  have hI1000 : I ≤ 1000 := by
    simp only [List.mem_cons, List.not_mem_nil, or_false] at hI
    rcases hI with h | h | h <;> omega
  have hrs : runStrategy strat ops = runMap ops := by cases strat <;> rfl
  have hnd : (ops.map Prod.fst).Nodup :=
    ((hperm.map Prod.fst).nodup_iff).mpr (harnessOps_keys_nodup W I hI1000)
  have hrev : runMap ops = ops.reverse := runMap_eq_reverse ops hnd
  have hlen : (runMap ops).length = W * I := by
    rw [hrev, List.length_reverse, hperm.length_eq, harnessOps_length]
  refine ⟨by rw [hrs]; exact hlen, ?_, ?_⟩
  · rw [hrs, rangeCount_eq_length]; exact hlen
  · intro w hw i hi
    rw [hrs, hrev]
    have hmem : (harnessKey w i, i) ∈ ops.reverse :=
      List.mem_reverse.mpr (hperm.mem_iff.mpr (mem_harnessOps hw hi))
    have hndrev : (ops.reverse.map Prod.fst).Nodup := by
      rw [List.map_reverse, List.nodup_reverse]
      exact hnd
    unfold syncLoad
    rw [find_of_mem_nodup ops.reverse (harnessKey w i) i hndrev hmem]
    rfl

theorem strategy_write_phase_correct_witness :
    (runStrategy Strategy.syncMap (harnessOps 1 1)).length = 1 * 1 ∧
    rangeCount (runStrategy Strategy.syncMap (harnessOps 1 1)) = 1 * 1 ∧
    ∀ w, w < 1 → ∀ i, i < 1 →
      syncLoad (runStrategy Strategy.syncMap (harnessOps 1 1)) (harnessKey w i) = some i :=
  strategy_write_phase_correct Strategy.syncMap 1 1 (by decide) (by decide)
    (harnessOps 1 1) (List.Perm.refl _)

/-- C5: the key derivation `workerIndex*1000 + iterationIndex` is
injective over worker indices below `W` and iteration indices below `I`
for every `I ≤ 1000`: no two distinct pairs produce the same key. -/
theorem harness_key_injective (W I : Nat) (hI : I ≤ 1000)
    (w1 i1 w2 i2 : Nat) (_hw1 : w1 < W) (_hw2 : w2 < W)
    (hi1 : i1 < I) (hi2 : i2 < I)
    (heq : harnessKey w1 i1 = harnessKey w2 i2) : w1 = w2 ∧ i1 = i2 :=
  harnessKey_inj_aux hI hi1 hi2 heq

theorem harness_key_injective_witness : 49 = 49 ∧ 999 = 999 :=
  harness_key_injective 50 1000 (by decide) 49 999 49 999
    (by decide) (by decide) (by decide) (by decide) rfl

/-- C4 counterexample: the counter program spawns 500 goroutines, not
50, and its expected final value is 500000, not 50000. -/
theorem counter_config_counterexample :
    counterGoroutines = 500 ∧ ¬ counterGoroutines = 50 ∧
    runAtomic counterGoroutines counterItersPerGoroutine = 500000 ∧
    ¬ runAtomic counterGoroutines counterItersPerGoroutine = 50000 := by
  refine ⟨rfl, by decide, ?_, ?_⟩
  · rw [runAtomic_eq]; decide
  · rw [runAtomic_eq]; decide

/-- C4 (amended): the atomic-counter comparison updates its two
counters under a `W`-workers, `I`-iterations scheme with the tested
configuration `W = 500` goroutines and `I = 1000` increments each, so
the expected final value is `W*I = 500000`, which the atomic arm
attains. -/
theorem counter_config_correct :
    counterGoroutines = 500 ∧ counterItersPerGoroutine = 1000 ∧
    runAtomic counterGoroutines counterItersPerGoroutine =
      counterGoroutines * counterItersPerGoroutine ∧
    counterGoroutines * counterItersPerGoroutine = expectedValue := by
  refine ⟨rfl, rfl, runAtomic_eq .., by decide⟩

/-- C7 counterexample: at an observed count of 49999 against the
expected 50000, the printed report carries exactly the count and the
elapsed time; neither the discrepancy (1) nor the expected count
(50000) appears among its values. -/
theorem report_counterexample :
    measurementReport 2870 49999 =
      [("Length of map", 49999), ("Total time taken", 2870)] ∧
    (∀ e ∈ measurementReport 2870 49999, ¬ e.2 = 50000 - 49999) ∧
    (∀ e ∈ measurementReport 2870 49999, ¬ e.2 = 50000) := by
  refine ⟨rfl, ?_, ?_⟩ <;> decide

/-- C7 (amended): the measurement report produced after the barrier
includes the elapsed wall-clock time of the write phase and the
observed entry count obtained via `Range`, and nothing else; the
discrepancy from the expected count `W*I` is not part of the report. -/
theorem report_contents (elapsed count : Nat) :
    measurementReport elapsed count =
      [("Length of map", count), ("Total time taken", elapsed)] ∧
    ("Length of map", count) ∈ measurementReport elapsed count ∧
    ("Total time taken", elapsed) ∈ measurementReport elapsed count := by
  refine ⟨rfl, ?_, ?_⟩ <;> simp [measurementReport]

/-! ### HW-6 product-search service: model and store

From `src/unnamed/part_002` (package `model`) and the `store` package
kept alongside `src/HW-6/terraform/modules/ecr/main.tf`. -/

/-- A catalog item.  `Price` is `float64` in the source; it is carried
opaquely since the embedded fragment never computes with it. -/
structure Product : Type where
  ID : Int
  Name : String
  Category : String
  Description : String
  Brand : String
  Price : Rat
deriving DecidableEq, Repr

/-- The Go zero value `model.Product{}` returned by `Get` on a miss. -/
def zeroProduct : Product := ⟨0, "", "", "", "", 0⟩

/-- `ProductStore` holds a `sync.Map` of products keyed by ID and an
`atomic.Int64` entry count. -/
structure ProductStore : Type where
  data : List (Int × Product)
  count : Int
deriving DecidableEq, Repr

/-- `store.New` creates an empty store. -/
def ProductStore.New : ProductStore := ⟨[], 0⟩

/-- `Put` stores the product under its ID and adds one to the counter
(the source increments on every call, updates included). -/
def ProductStore.Put (s : ProductStore) (p : Product) : ProductStore :=
  ⟨syncStore s.data p.ID p, s.count + 1⟩

/-- `Get` retrieves a product by ID, returning the product and whether
it was found; a miss yields the zero product and `false`. -/
def ProductStore.Get (s : ProductStore) (id : Int) : Product × Bool :=
  match syncLoad s.data id with
  | none => (zeroProduct, false)
  | some p => (p, true)

/-- `Count` returns the stored counter value. -/
def ProductStore.Count (s : ProductStore) : Int := s.count

/-! ### Claims about the store basics -/

/-- C3: for every store, a `Put` of product `p` followed by `Get` of
`p.ID`, with no intervening write, returns `(p, true)`. -/
theorem put_get_roundtrip (s : ProductStore) (p : Product) :
    (s.Put p).Get p.ID = (p, true) := by
  unfold ProductStore.Put ProductStore.Get
  rw [syncLoad_store_self]

/-- C6: `Get` on an absent key is not fatal: it returns the zero
product and `false`.  In this embedding `Get` is a pure function of
the store (as `sync.Map.Load` performs no write in the source), so the
store is unchanged by construction. -/
theorem get_absent (s : ProductStore) (id : Int)
    (h : syncLoad s.data id = none) :
    s.Get id = (zeroProduct, false) := by
  unfold ProductStore.Get
  rw [h]

theorem get_absent_witness :
    syncLoad ProductStore.New.data 5 = none ∧
    ProductStore.New.Get 5 = (zeroProduct, false) :=
  ⟨rfl, get_absent ProductStore.New 5 rfl⟩

/-- Two writes to the same ID, exhibiting the count inflation. -/
def sampleProduct : Product :=
  ⟨1, "Laptop", "Electronics", "A laptop", "BrandA", 999⟩

/-- A second product carrying the same ID as `sampleProduct`. -/
def sampleProductUpdated : Product :=
  ⟨1, "Laptop Pro", "Electronics", "A newer laptop", "BrandA", 1299⟩

/-- C2 (code bug): after `Put` is called twice with the same product
ID, the store holds a single entry (last-write-wins) yet `Count`
reports 2, because the source increments the counter on every `Put`,
updates included — contradicting its own documentation that `Count`
returns the total number of products in the store. -/
theorem count_inflated_on_update :
    ((ProductStore.New.Put sampleProduct).Put sampleProductUpdated).Count = 2 ∧
    ((ProductStore.New.Put sampleProduct).Put sampleProductUpdated).data.map
      Prod.fst = [1] ∧
    ((ProductStore.New.Put sampleProduct).Put sampleProductUpdated).data.length
      = 1 := by
  refine ⟨rfl, rfl, rfl⟩

/-! ### The store iterator

`Iterate` scans IDs from `startID` while `id <= total` (where `total`
is the count read once at entry) and `visited < maxCount`; an absent ID
is skipped, a present one is passed to the callback after counting it,
and a `false` callback result stops the scan.  Go closures mutate
captured locals, so the callback threads an explicit state `σ`; the
exported `Iterate` has the source signature with `σ := Unit`.  The
`for` loop is driven by fuel `total + 1 - startID`, which makes the
`id <= total` test the terminator. -/

/-- The loop body of `ProductStore.Iterate`, with explicit state. -/
def iterateGo {σ : Type} (data : List (Int × Product)) (total maxCount : Int)
    (fn : σ → Product → σ × Bool) : Nat → Int → Int → σ → Int × σ
  | 0, _, visited, st => (visited, st)
  | fuel + 1, id, visited, st =>
    if id ≤ total ∧ visited < maxCount then
      match syncLoad data id with
      | none => iterateGo data total maxCount fn fuel (id + 1) visited st
      | some p =>
        match fn st p with
        | (st1, true) =>
            iterateGo data total maxCount fn fuel (id + 1) (visited + 1) st1
        | (st1, false) => (visited + 1, st1)
    else (visited, st)

/-- Fuel sufficient for the scan from `startID` up to `total`. -/
def iterateFuel (startID total : Int) : Nat := (total + 1 - startID).toNat

/-- `Iterate` with an explicit callback state (the shape used by
`search.Execute`, whose callback closes over mutable locals). -/
def ProductStore.IterateSt {σ : Type} (s : ProductStore)
    (startID maxCount : Int) (fn : σ → Product → σ × Bool) (init : σ) :
    Int × σ :=
  iterateGo s.data s.count maxCount fn (iterateFuel startID s.count)
    startID 0 init

/-- `Iterate` as in the source: visits products from `startID`, up to
`maxCount` of them, and returns the number visited. -/
def ProductStore.Iterate (s : ProductStore) (startID maxCount : Int)
    (fn : Product → Bool) : Int :=
  (s.IterateSt startID maxCount (fun u p => (u, fn p)) ()).1

/-- The IDs the scan would examine: `fuel` consecutive IDs from
`startID`. -/
def scanIds (startID : Int) (fuel : Nat) : List Int :=
  (List.range fuel).map (fun (n : Nat) => startID + (n : Int))

/-- How many of the scanned IDs are present in the data. -/
def presentCount (data : List (Int × Product)) (startID : Int)
    (fuel : Nat) : Nat :=
  ((scanIds startID fuel).filter (fun j => (syncLoad data j).isSome)).length

/-- How many IDs in `[startID, Count()]` hold an entry. -/
def presentInRange (s : ProductStore) (startID : Int) : Nat :=
  presentCount s.data startID (iterateFuel startID s.count)

/-- The callback state that records every product the scan visits. -/
def collectFn (acc : List Product) (p : Product) : List Product × Bool :=
  (acc ++ [p], true)

/-- The products a full bounded scan starting at ID 1 passes to the
callback (the products `search.Execute` checks). -/
def checkedProducts (s : ProductStore) (maxCount : Int) : List Product :=
  (s.IterateSt 1 maxCount collectFn []).2

/-! ### Lemmas about the iterator -/

/-- The visit counter never exceeds `maxCount`. -/
theorem iterateGo_fst_le {σ : Type} (data : List (Int × Product))
    (total maxCount : Int) (fn : σ → Product → σ × Bool) :
    ∀ fuel (id : Int) (visited : Int) (st : σ), visited ≤ maxCount →
      (iterateGo data total maxCount fn fuel id visited st).1 ≤ maxCount := by
  intro fuel
  induction fuel with
  | zero => intro id visited st h; exact h
  | succ fuel ih =>
    intro id visited st h
    by_cases hguard : id ≤ total ∧ visited < maxCount
    · cases hload : syncLoad data id with
      | none =>
        simp only [iterateGo, if_pos hguard, hload]
        exact ih _ _ _ h
      | some p =>
        cases hfn : fn st p with
        | mk st1 b =>
          cases b
          · simp only [iterateGo, if_pos hguard, hload, hfn]
            omega
          · simp only [iterateGo, if_pos hguard, hload, hfn]
            exact ih _ _ _ (by omega)
    · simp only [iterateGo, if_neg hguard]
      exact h

/-- Any property preserved by the callback holds of the final state. -/
theorem iterateGo_inv {σ : Type} (data : List (Int × Product))
    (total maxCount : Int) (fn : σ → Product → σ × Bool) (P : σ → Prop)
    (hstep : ∀ st p, P st → P (fn st p).1) :
    ∀ fuel (id : Int) (visited : Int) (st : σ), P st →
      P (iterateGo data total maxCount fn fuel id visited st).2 := by
  intro fuel
  induction fuel with
  | zero => intro id visited st h; exact h
  | succ fuel ih =>
    intro id visited st h
    by_cases hguard : id ≤ total ∧ visited < maxCount
    · cases hload : syncLoad data id with
      | none =>
        simp only [iterateGo, if_pos hguard, hload]
        exact ih _ _ _ h
      | some p =>
        have hp : P (fn st p).1 := hstep st p h
        cases hfn : fn st p with
        | mk st1 b =>
          rw [hfn] at hp
          cases b
          · simp only [iterateGo, if_pos hguard, hload, hfn]
            exact hp
          · simp only [iterateGo, if_pos hguard, hload, hfn]
            exact ih _ _ _ hp
    · simp only [iterateGo, if_neg hguard]
      exact h

/-- The collecting run only appends: its result from accumulator `l` is
its result from `[]`, prefixed by `l`. -/
theorem iterateGo_collect_append (data : List (Int × Product))
    (total maxCount : Int) :
    ∀ fuel (id : Int) (visited : Int) (l : List Product),
      iterateGo data total maxCount collectFn fuel id visited l =
        ((iterateGo data total maxCount collectFn fuel id visited []).1,
          l ++ (iterateGo data total maxCount collectFn fuel id visited []).2) := by
  intro fuel
  induction fuel with
  | zero => intro id visited l; simp [iterateGo]
  | succ fuel ih =>
    intro id visited l
    by_cases hguard : id ≤ total ∧ visited < maxCount
    · cases hload : syncLoad data id with
      | none =>
        simp only [iterateGo, if_pos hguard, hload]
        exact ih (id + 1) visited l
      | some p =>
        simp only [iterateGo, if_pos hguard, hload, collectFn,
          List.nil_append]
        rw [ih (id + 1) (visited + 1) (l ++ [p]),
          ih (id + 1) (visited + 1) [p]]
        simp
    · simp only [iterateGo, if_neg hguard]
      simp

/-- A run whose callback always continues visits the same products, in
the same order, as the collecting run, and its final state is the fold
of the callback over the collected products. -/
theorem iterateGo_total_run {σ : Type} (data : List (Int × Product))
    (total maxCount : Int) (fn : σ → Product → σ × Bool)
    (hcont : ∀ st p, (fn st p).2 = true) :
    ∀ fuel (id : Int) (visited : Int) (st : σ),
      (iterateGo data total maxCount fn fuel id visited st).1 =
        (iterateGo data total maxCount collectFn fuel id visited []).1 ∧
      (iterateGo data total maxCount fn fuel id visited st).2 =
        (iterateGo data total maxCount collectFn fuel id visited []).2.foldl
          (fun st p => (fn st p).1) st := by
  intro fuel
  induction fuel with
  | zero => intro id visited st; exact ⟨rfl, rfl⟩
  | succ fuel ih =>
    intro id visited st
    by_cases hguard : id ≤ total ∧ visited < maxCount
    · cases hload : syncLoad data id with
      | none =>
        simp only [iterateGo, if_pos hguard, hload]
        exact ih (id + 1) visited st
      | some p =>
        have hc := hcont st p
        cases hfn : fn st p with
        | mk st1 b =>
          rw [hfn] at hc
          cases b
          · simp at hc
          · simp only [iterateGo, if_pos hguard, hload, hfn, collectFn,
              List.nil_append]
            rw [iterateGo_collect_append data total maxCount fuel (id + 1)
              (visited + 1) [p]]
            simp only [List.foldl_append, List.foldl_cons, List.foldl_nil]
            have hst1 : (fn st p).1 = st1 := by rw [hfn]
            rw [hst1]
            exact ih (id + 1) (visited + 1) st1
    · simp [iterateGo, if_neg hguard]

/-- Peeling the first scanned ID. -/
theorem scanIds_succ (startID : Int) (fuel : Nat) :
    scanIds startID (fuel + 1) = startID :: scanIds (startID + 1) fuel := by
  unfold scanIds
  rw [List.range_succ_eq_map]
  rw [List.map_cons, List.map_map]
  congr 1
  · simp
  · apply List.map_congr_left
    intro n _
    simp only [Function.comp_apply, Nat.succ_eq_add_one]
    push_cast
    omega

/-- Peeling the first scanned ID out of the present-ID count. -/
theorem presentCount_succ (data : List (Int × Product)) (startID : Int)
    (fuel : Nat) :
    presentCount data startID (fuel + 1) =
      (if (syncLoad data startID).isSome then 1 else 0) +
        presentCount data (startID + 1) fuel := by
  unfold presentCount
  rw [scanIds_succ]
  by_cases hp : (syncLoad data startID).isSome
  · rw [List.filter_cons_of_pos (by simpa using hp)]
    simp only [hp, if_pos, List.length_cons]
    omega
  · rw [List.filter_cons_of_neg (by simpa using hp)]
    simp [hp]

/-- The collecting run visits `min maxCount (number of present IDs)`
entries beyond its starting counter, when driven by exact fuel. -/
theorem iterateGo_collect_count (data : List (Int × Product))
    (total maxCount : Int) :
    ∀ fuel (id : Int) (visited : Int),
      fuel = (total + 1 - id).toNat → visited ≤ maxCount →
      (iterateGo data total maxCount collectFn fuel id visited []).1 =
        min maxCount (visited + (presentCount data id fuel : Int)) := by
  intro fuel
  induction fuel with
  | zero =>
    intro id visited hfuel h
    show visited = min maxCount (visited + (presentCount data id 0 : Int))
    rw [show presentCount data id 0 = 0 from rfl]
    push_cast
    omega
  | succ fuel ih =>
    intro id visited hfuel h
    have hid : id ≤ total := by omega
    have hfuel1 : fuel = (total + 1 - (id + 1)).toNat := by omega
    by_cases hv : visited < maxCount
    · have hguard : id ≤ total ∧ visited < maxCount := ⟨hid, hv⟩
      cases hload : syncLoad data id with
      | none =>
        simp only [iterateGo, if_pos hguard, hload]
        rw [ih (id + 1) visited hfuel1 h, presentCount_succ, hload]
        simp
      | some p =>
        simp only [iterateGo, if_pos hguard, hload, collectFn,
          List.nil_append]
        rw [iterateGo_collect_append data total maxCount fuel (id + 1)
          (visited + 1) [p]]
        simp only []
        rw [ih (id + 1) (visited + 1) hfuel1 (by omega),
          presentCount_succ, hload]
        simp only [Option.isSome_some, if_pos]
        push_cast
        omega
    · have hguard : ¬ (id ≤ total ∧ visited < maxCount) := by
        intro hg; exact hv hg.2
      simp only [iterateGo, if_neg hguard]
      omega

/-- A callback that always stops yields at most one visit beyond the
starting counter. -/
theorem iterateGo_stop_le {σ : Type} (data : List (Int × Product))
    (total maxCount : Int) (fn : σ → Product → σ × Bool)
    (hstop : ∀ st p, (fn st p).2 = false) :
    ∀ fuel (id : Int) (visited : Int) (st : σ),
      (iterateGo data total maxCount fn fuel id visited st).1 ≤ visited + 1 := by
  intro fuel
  induction fuel with
  | zero => intro id visited st; simp [iterateGo]
  | succ fuel ih =>
    intro id visited st
    by_cases hguard : id ≤ total ∧ visited < maxCount
    · cases hload : syncLoad data id with
      | none =>
        simp only [iterateGo, if_pos hguard, hload]
        exact ih (id + 1) visited st
      | some p =>
        have hc := hstop st p
        cases hfn : fn st p with
        | mk st1 b =>
          rw [hfn] at hc
          cases b
          · simp only [iterateGo, if_pos hguard, hload, hfn]
            omega
          · simp at hc
    · simp only [iterateGo, if_neg hguard]
      omega

/-- An entry stored at a key beyond `total` is invisible to the scan. -/
theorem iterateGo_ignore_high {σ : Type} (data : List (Int × Product))
    (total maxCount : Int) (fn : σ → Product → σ × Bool)
    (k : Int) (p : Product) (hk : total < k) :
    ∀ fuel (id : Int) (visited : Int) (st : σ),
      fuel = (total + 1 - id).toNat →
      iterateGo (syncStore data k p) total maxCount fn fuel id visited st =
        iterateGo data total maxCount fn fuel id visited st := by
  intro fuel
  induction fuel with
  | zero => intro id visited st hfuel; rfl
  | succ fuel ih =>
    intro id visited st hfuel
    have hid : id ≤ total := by omega
    have hfuel1 : fuel = (total + 1 - (id + 1)).toNat := by omega
    have hne : id ≠ k := by omega
    have hload : syncLoad (syncStore data k p) id = syncLoad data id :=
      syncLoad_store_ne data k id p hne
    by_cases hguard : id ≤ total ∧ visited < maxCount
    · cases hload2 : syncLoad data id with
      | none =>
        rw [hload2] at hload
        simp only [iterateGo, if_pos hguard, hload, hload2]
        exact ih (id + 1) visited st hfuel1
      | some q =>
        rw [hload2] at hload
        cases hfn : fn st q with
        | mk st1 b =>
          cases b
          · simp only [iterateGo, if_pos hguard, hload, hload2, hfn]
          · simp only [iterateGo, if_pos hguard, hload, hload2, hfn]
            exact ih (id + 1) (visited + 1) st1 hfuel1
    · simp only [iterateGo, if_neg hguard]

/-! ### The iterator claim -/

/-- C8: `Iterate` examines only IDs in `[startID, Count()]`: for any
nonnegative bound it visits at most `maxCount` entries; with a callback
that always continues it returns exactly the number of present IDs in
the range, capped at `maxCount` (absent IDs are skipped without being
counted); a callback that returns `false` stops the scan after the
first visit; and an entry stored under an ID larger than the current
count is unreachable — its presence does not change the result. -/
theorem iterate_spec (s : ProductStore) (startID maxCount : Int)
    (hmc : 0 ≤ maxCount) :
    (∀ fn, s.Iterate startID maxCount fn ≤ maxCount) ∧
    s.Iterate startID maxCount (fun _ => true) =
      min maxCount (presentInRange s startID : Int) ∧
    s.Iterate startID maxCount (fun _ => false) ≤ 1 ∧
    (∀ (k : Int) (p : Product) (fn : Product → Bool), s.Count < k →
      ProductStore.Iterate ⟨syncStore s.data k p, s.count⟩ startID maxCount fn =
        s.Iterate startID maxCount fn) := by
  refine ⟨?_, ?_, ?_, ?_⟩
  · intro fn
    exact iterateGo_fst_le s.data s.count maxCount _ _ startID 0 () hmc
  · unfold ProductStore.Iterate ProductStore.IterateSt
    rw [(iterateGo_total_run s.data s.count maxCount
      (fun u p => (u, true)) (fun _ _ => rfl)
      (iterateFuel startID s.count) startID 0 ()).1]
    rw [iterateGo_collect_count s.data s.count maxCount
      (iterateFuel startID s.count) startID 0 rfl hmc]
    unfold presentInRange
    rw [zero_add]
  · have h := iterateGo_stop_le s.data s.count maxCount
      (fun u (p : Product) => (u, (fun (_ : Product) => false) p))
      (fun _ _ => rfl) (iterateFuel startID s.count) startID 0 ()
    unfold ProductStore.Iterate ProductStore.IterateSt
    omega
  · intro k p fn hk
    unfold ProductStore.Iterate ProductStore.IterateSt
    rw [iterateGo_ignore_high s.data s.count maxCount
      (fun u q => (u, fn q)) k p hk (iterateFuel startID s.count) startID 0 () rfl]

theorem iterate_spec_witness :
    (∀ fn, (ProductStore.New.Put sampleProduct).Iterate 1 5 fn ≤ 5) ∧
    (ProductStore.New.Put sampleProduct).Iterate 1 5 (fun _ => true) =
      min 5 (presentInRange (ProductStore.New.Put sampleProduct) 1 : Int) ∧
    (ProductStore.New.Put sampleProduct).Iterate 1 5 (fun _ => false) ≤ 1 ∧
    (∀ (k : Int) (p : Product) (fn : Product → Bool),
      (ProductStore.New.Put sampleProduct).Count < k →
      ProductStore.Iterate
        ⟨syncStore (ProductStore.New.Put sampleProduct).data k p,
          (ProductStore.New.Put sampleProduct).count⟩ 1 5 fn =
        (ProductStore.New.Put sampleProduct).Iterate 1 5 fn) :=
  iterate_spec (ProductStore.New.Put sampleProduct) 1 5 (by decide)

/-! ### The search module

From `src/HW-6/search/search.go`: a bounded case-insensitive substring
search over the store, via `Iterate(1, MaxCheck, ...)` with a callback
that closes over the mutable locals `matches` and `totalFound`.  Go
strings are modelled as their character lists after `ToLower`. -/

/-- The number of products inspected per search. -/
def MaxCheck : Int := 100

/-- The cap on the number of products returned in a response. -/
def MaxResults : Nat := 20

/-- `strings.ToLower`, as a character list. -/
def goToLower (s : String) : List Char := s.toList.map Char.toLower

/-- Whether `s` starts with `pat`. -/
def startsWithSeq : List Char → List Char → Bool
  | _, [] => true
  | [], _ :: _ => false
  | c :: s, d :: pat => c == d && startsWithSeq s pat

/-- `strings.Contains s pat`: some suffix of `s` starts with `pat`. -/
def containsSeq : List Char → List Char → Bool
  | [], pat => startsWithSeq [] pat
  | c :: s, pat => startsWithSeq (c :: s) pat || containsSeq s pat

/-- The match test of `search.Execute`: the lowered name or the lowered
category contains the lowered query. -/
def matchesQuery (queryLower : List Char) (p : Product) : Bool :=
  containsSeq (goToLower p.Name) queryLower ||
    containsSeq (goToLower p.Category) queryLower

/-- The body of the `Execute` callback: on a match, count it and append
it to the result list while fewer than `MaxResults` were gathered;
always continue scanning. -/
def searchStep (queryLower : List Char) (st : List Product × Nat)
    (p : Product) : (List Product × Nat) × Bool :=
  if matchesQuery queryLower p then
    ((if st.1.length < MaxResults then st.1 ++ [p] else st.1, st.2 + 1), true)
  else (st, true)

/-- The outcome of a search.  The wall-clock `SearchTime` string of the
source is outside the embedding. -/
structure SearchResult : Type where
  Products : List Product
  TotalFound : Nat
  Checked : Int
deriving DecidableEq, Repr

/-- `search.Execute`: a bounded scan from ID 1 over at most `MaxCheck`
products, gathering up to `MaxResults` matches. -/
def Execute (s : ProductStore) (query : String) : SearchResult :=
  let queryLower := goToLower query
  let r := s.IterateSt 1 MaxCheck (searchStep queryLower) ([], 0)
  ⟨r.2.1, r.2.2, r.1⟩

/-- The search callback always continues. -/
theorem searchStep_continues (ql : List Char) (st : List Product × Nat)
    (p : Product) : (searchStep ql st p).2 = true := by
  unfold searchStep
  by_cases h : matchesQuery ql p <;> simp [h]

/-- The accumulator invariant of the search callback. -/
theorem searchStep_inv (ql : List Char) (st : List Product × Nat)
    (p : Product)
    (h : (∀ q ∈ st.1, matchesQuery ql q = true) ∧
      st.1.length ≤ MaxResults ∧ st.1.length ≤ st.2) :
    (∀ q ∈ (searchStep ql st p).1.1, matchesQuery ql q = true) ∧
      (searchStep ql st p).1.1.length ≤ MaxResults ∧
      (searchStep ql st p).1.1.length ≤ (searchStep ql st p).1.2 := by
  obtain ⟨hall, hlen, hcnt⟩ := h
  unfold searchStep
  by_cases hm : matchesQuery ql p
  · rw [if_pos hm]
    by_cases hfull : st.1.length < MaxResults
    · rw [if_pos hfull]
      refine ⟨?_, ?_, ?_⟩
      · intro q hq
        rcases List.mem_append.mp hq with hq | hq
        · exact hall q hq
        · rw [List.mem_singleton.mp hq]
          exact hm
      · simp only [List.length_append, List.length_singleton]
        omega
      · simp only [List.length_append, List.length_singleton]
        omega
    · rw [if_neg hfull]
      exact ⟨hall, hlen, show st.1.length ≤ st.2 + 1 by omega⟩
  · rw [if_neg hm]
    exact ⟨hall, hlen, hcnt⟩

/-- Folding the search callback counts exactly the matching products. -/
theorem foldl_searchStep_snd (ql : List Char) (l : List Product) :
    ∀ st : List Product × Nat,
      (l.foldl (fun st p => (searchStep ql st p).1) st).2 =
        st.2 + (l.filter (matchesQuery ql)).length := by
  induction l with
  | nil => intro st; simp
  | cons p t ih =>
    intro st
    rw [List.foldl_cons]
    by_cases hm : matchesQuery ql p
    · rw [List.filter_cons_of_pos hm]
      have hstep : ((searchStep ql st p).1).2 = st.2 + 1 := by
        unfold searchStep
        rw [if_pos hm]
      rw [ih, hstep]
      simp only [List.length_cons]
      omega
    · rw [List.filter_cons_of_neg (by simpa using hm)]
      have hstep : (searchStep ql st p).1 = st := by
        unfold searchStep
        rw [if_neg hm]
      rw [ih, hstep]

/-- C9: `Execute` returns at most `MaxResults` (20) products; every
returned product matches the query case-insensitively in name or
category; `TotalFound` equals the number of matches among all checked
products, hence is at least the number of returned products; and
`Checked` never exceeds `MaxCheck` (100). -/
theorem execute_spec (s : ProductStore) (query : String) :
    (Execute s query).Products.length ≤ MaxResults ∧
    (∀ p ∈ (Execute s query).Products,
      matchesQuery (goToLower query) p = true) ∧
    (Execute s query).TotalFound =
      ((checkedProducts s MaxCheck).filter
        (matchesQuery (goToLower query))).length ∧
    (Execute s query).Products.length ≤ (Execute s query).TotalFound ∧
    (Execute s query).Checked ≤ MaxCheck := by
  have hinv := iterateGo_inv s.data s.count MaxCheck
    (searchStep (goToLower query))
    (fun st => (∀ q ∈ st.1, matchesQuery (goToLower query) q = true) ∧
      st.1.length ≤ MaxResults ∧ st.1.length ≤ st.2)
    (fun st p hp => searchStep_inv (goToLower query) st p hp)
    (iterateFuel 1 s.count) 1 0 ([], 0)
    ⟨fun q hq => absurd hq (List.not_mem_nil q), by simp, by simp⟩
  have hrun := iterateGo_total_run s.data s.count MaxCheck
    (searchStep (goToLower query)) (searchStep_continues (goToLower query))
    (iterateFuel 1 s.count) 1 0 ([], 0)
  have hle := iterateGo_fst_le s.data s.count MaxCheck
    (searchStep (goToLower query)) (iterateFuel 1 s.count) 1 0 ([], 0)
    (by decide)
  refine ⟨?_, ?_, ?_, ?_, ?_⟩
  · show (iterateGo s.data s.count MaxCheck (searchStep (goToLower query))
      (iterateFuel 1 s.count) 1 0 ([], 0)).2.1.length ≤ MaxResults
    exact hinv.2.1
  · show ∀ p ∈ (iterateGo s.data s.count MaxCheck
      (searchStep (goToLower query))
      (iterateFuel 1 s.count) 1 0 ([], 0)).2.1,
        matchesQuery (goToLower query) p = true
    exact hinv.1
  · have h3 := congrArg Prod.snd hrun.2
    rw [foldl_searchStep_snd (goToLower query)
      (iterateGo s.data s.count MaxCheck collectFn
        (iterateFuel 1 s.count) 1 0 []).2 ([], 0)] at h3
    show (iterateGo s.data s.count MaxCheck (searchStep (goToLower query))
      (iterateFuel 1 s.count) 1 0 ([], 0)).2.2 =
        ((checkedProducts s MaxCheck).filter
          (matchesQuery (goToLower query))).length
    rw [h3]
    show 0 + _ = _
    rw [Nat.zero_add]
    rfl
  · show (iterateGo s.data s.count MaxCheck (searchStep (goToLower query))
      (iterateFuel 1 s.count) 1 0 ([], 0)).2.1.length ≤
        (iterateGo s.data s.count MaxCheck (searchStep (goToLower query))
          (iterateFuel 1 s.count) 1 0 ([], 0)).2.2
    exact hinv.2.2
  · exact hle

/-- Two distinct catalog items for exercising the search. -/
def appleProduct : Product := ⟨1, "Apple", "Fruit", "Fresh fruit", "FarmCo", 2⟩

/-- A second catalog item in another category. -/
def cableProduct : Product := ⟨2, "Cable", "Electronics", "USB cable", "WireCo", 5⟩

/-- A small store holding the two sample items. -/
def searchSampleStore : ProductStore :=
  (ProductStore.New.Put appleProduct).Put cableProduct

theorem execute_spec_witness :
    (Execute searchSampleStore "LE").Products.length ≤ MaxResults ∧
    (∀ p ∈ (Execute searchSampleStore "LE").Products,
      matchesQuery (goToLower "LE") p = true) ∧
    (Execute searchSampleStore "LE").TotalFound =
      ((checkedProducts searchSampleStore MaxCheck).filter
        (matchesQuery (goToLower "LE"))).length ∧
    (Execute searchSampleStore "LE").Products.length ≤
      (Execute searchSampleStore "LE").TotalFound ∧
    (Execute searchSampleStore "LE").Checked ≤ MaxCheck :=
  execute_spec searchSampleStore "LE"

/-! ### The seed-data loader

From `src/unnamed/part_006` (package `seeddata`): the pure
transformation from a decoded DummyJSON response to the seed list.
The network fetch, the JSON decoding and the fatal-exit paths are
outside the embedding. -/

/-- A product as decoded from the DummyJSON response. -/
structure DummyJSONProduct : Type where
  Title : String
  Description : String
  Category : String
  Price : Rat
  Brand : String
deriving DecidableEq, Repr

/-- The template data for generating product variants. -/
structure SeedProduct : Type where
  Name : String
  Category : String
  Description : String
  Brand : String
  Price : Rat
deriving DecidableEq, Repr

/-- One loop step of `Load`: an empty fetched brand becomes
`"Generic"`. -/
def seedOf (p : DummyJSONProduct) : SeedProduct :=
  ⟨p.Title, p.Category, p.Description,
    if p.Brand = "" then "Generic" else p.Brand, p.Price⟩

/-- The seed list `Load` builds from the decoded products. -/
def seedsOf (products : List DummyJSONProduct) : List SeedProduct :=
  products.map seedOf

/-- C10: every seed returned by the loader has a non-empty brand; a
product whose fetched brand is empty is assigned `"Generic"`. -/
theorem load_brand_nonempty (ps : List DummyJSONProduct) (s : SeedProduct)
    (h : s ∈ seedsOf ps) : s.Brand ≠ "" := by
  unfold seedsOf at h
  rw [List.mem_map] at h
  obtain ⟨p, _, hp⟩ := h
  subst hp
  unfold seedOf
  by_cases hb : p.Brand = ""
  · simp only [hb, if_pos]
    decide
  · simp only [hb, if_neg, ite_false]
    exact hb

/-- A fetched product whose brand field is empty. -/
def sampleFetched : DummyJSONProduct :=
  ⟨"Pencil", "A wooden pencil", "stationery", 1, ""⟩

theorem load_brand_nonempty_witness :
    seedOf sampleFetched ∈ seedsOf [sampleFetched] ∧
    (seedOf sampleFetched).Brand = "Generic" ∧
    (seedOf sampleFetched).Brand ≠ "" :=
  ⟨List.mem_singleton.mpr rfl, rfl,
    load_brand_nonempty [sampleFetched] (seedOf sampleFetched)
      (List.mem_singleton.mpr rfl)⟩

end GoHw
